import Mathlib

/-!
Shallow embedding of `src/kmeans_cpp_loop.cpp` (an Rcpp implementation of
Lloyd's k-means). Real-valued data is modelled over `ℚ` (exact arithmetic);
matrices are lists of rows; the host RNG (`R::runif`) is modelled as an
injected stream `rng : ℕ → ℕ` of pre-drawn observation indices, consumed
one draw per empty-cluster reseed, in cluster order.
-/

namespace Clustering

abbrev Matrix := List (List ℚ)

/-- Squared Euclidean distance between a row `x` and a center row `c`:
the inner `l` loop of `find_closest_centers` (`dist += diff * diff`). -/
def sqDist (x c : List ℚ) : ℚ :=
  (List.zipWith (fun a b => (a - b) * (a - b)) x c).sum

/-- The `j` loop of `find_closest_centers`: scan the center rows keeping
`min_dist` (`none` models the initial `R_PosInf`, which every finite
distance beats) and `best_cluster` (initially `0`, updated to `j + 1`,
i.e. 1-based indexing for R). -/
def bestClusterAux (x : List ℚ) : List (List ℚ) → ℕ → Option ℚ → ℕ → ℕ
  | [], _, _, best => best
  | c :: rest, j, none, _ =>
    bestClusterAux x rest (j + 1) (some (sqDist x c)) (j + 1)
  | c :: rest, j, some m, best =>
    if sqDist x c < m then bestClusterAux x rest (j + 1) (some (sqDist x c)) (j + 1)
    else bestClusterAux x rest (j + 1) (some m) best

/-- `find_closest_centers(X, centers)`: for each observation row, the
1-based index of the closest center (ties to the first encountered). -/
def find_closest_centers (X centers : Matrix) : List ℕ :=
  X.map (fun x => bestClusterAux x centers 0 none 0)

/-- Coordinate-wise addition of a row into an accumulator
(`new_centers(cluster_idx, l) += X(j, l)`). -/
def addRow (acc x : List ℚ) : List ℚ := List.zipWith (· + ·) acc x

/-- One step of the accumulation loop of the update step:
`cluster_idx = assignments[j] - 1; counts[cluster_idx]++;` and add the
observation's coordinates into that cluster's accumulator row. -/
def accStep (s : List ℕ × Matrix) (p : List ℚ × ℕ) : List ℕ × Matrix :=
  let idx := p.2 - 1
  (s.1.set idx (s.1.getD idx 0 + 1), s.2.set idx (addRow (s.2.getD idx []) p.1))

/-- The accumulation phase of the update step: starting from `new_centers`
filled with `0.0` and zero `counts`, fold `accStep` over the observations
paired with their assignments, in order. -/
def accumulate (X : Matrix) (A : List ℕ) (k d : ℕ) : List ℕ × Matrix :=
  (X.zip A).foldl accStep (List.replicate k 0, List.replicate k (List.replicate d 0))

/-- The divide/reseed phase of the update step, one cluster at a time:
`counts[j] > 0` divides the accumulated row by the count; an empty cluster
takes the coordinates of the observation at the next RNG draw
(`floor(R::runif(0, n_obs))`, modelled as `rng t`), advancing the draw
counter `t`. -/
def finalizeAux (X : Matrix) (rng : ℕ → ℕ) : List (ℕ × List ℚ) → ℕ → Matrix
  | [], _ => []
  | p :: rest, t =>
    if 0 < p.1 then (p.2.map (fun q => q / (p.1 : ℚ))) :: finalizeAux X rng rest t
    else (X.getD (rng t) []) :: finalizeAux X rng rest (t + 1)

/-- Number of empty clusters in a counts vector: how many RNG draws the
divide/reseed phase consumes. -/
def numReseeds (counts : List ℕ) : ℕ := (counts.filter (fun c => c == 0)).length

/-- The full update step (lines 61–87): accumulate, then divide or reseed,
with `t` the index of the next unconsumed RNG draw. -/
def updateCenters (X : Matrix) (A : List ℕ) (k d : ℕ) (rng : ℕ → ℕ) (t : ℕ) : Matrix :=
  finalizeAux X rng ((accumulate X A k d).1.zip (accumulate X A k d).2) t

/-- `center_change`: sum over all clusters and dimensions of the squared
difference between the new and old center entries. -/
def centerChange (newC C : Matrix) : ℚ :=
  ((newC.zip C).map (fun p => sqDist p.1 p.2)).sum

/-- Which `return` statement of `kmeans_cpp_loop` produced the result:
the assignment-stability return (iter `i`), the tolerance return
(iter `i + 1`), or the fall-through at `max_iter`. -/
inductive StopReason
  | stability
  | tolerance
  | maxIter
deriving DecidableEq, Repr

/-- The `List::create(centers, cluster, iter)` result, together with the
reason recording which return statement was taken. -/
structure KMResult where
  centers : Matrix
  cluster : List ℕ
  iter : ℤ
  reason : StopReason
deriving DecidableEq, Repr

/-- The main `for (i = 0; i < max_iter; ++i)` loop of `kmeans_cpp_loop`:
`old` is `old_assignments` (initially default-initialized to zeros),
`i` the iteration index, `fuel` the remaining iterations
(`max_iter.toNat` at entry), and `t` the RNG draw counter. -/
def kmLoop (X : Matrix) (rng : ℕ → ℕ) (tol : ℚ) (maxIter : ℤ) (k d : ℕ) :
    Matrix → List ℕ → ℕ → ℕ → ℕ → KMResult
  | centers, old, _, 0, _ => ⟨centers, old, maxIter, .maxIter⟩
  | centers, old, i, fuel + 1, t =>
    let A := find_closest_centers X centers
    if A = old then ⟨centers, A, (i : ℤ), .stability⟩
    else
      let newC := updateCenters X A k d rng t
      if centerChange newC centers < tol then ⟨newC, A, (i : ℤ) + 1, .tolerance⟩
      else kmLoop X rng tol maxIter k d newC A (i + 1) fuel
        (t + numReseeds (accumulate X A k d).1)

/-- `kmeans_cpp_loop(X, centers, max_iter, tol)` with the RNG draws
injected as `rng`: `k = centers.nrow()`, `n_vars = X.ncol()`,
`assignments`/`old_assignments` start as zero vectors of length
`n_obs = X.nrow()`. -/
def kmeans_cpp_loop (X centers : Matrix) (max_iter : ℤ) (tol : ℚ) (rng : ℕ → ℕ) : KMResult :=
  kmLoop X rng tol max_iter centers.length (X.headD []).length centers
    (List.replicate X.length 0) 0 max_iter.toNat 0

/-- The observation/assignment pairs currently assigned to cluster `j`
(0-based `j`; the stored assignment value is `j + 1`). -/
def assignedPairs (X : Matrix) (A : List ℕ) (j : ℕ) : List (List ℚ × ℕ) :=
  (X.zip A).filter (fun p => p.2 == j + 1)

/-- Number of observations assigned to cluster `j`. -/
def countIn (X : Matrix) (A : List ℕ) (j : ℕ) : ℕ := (assignedPairs X A j).length

/-- Coordinate `l` of the sum of the observations assigned to cluster `j`. -/
def clusterSum (X : Matrix) (A : List ℕ) (j l : ℕ) : ℚ :=
  ((assignedPairs X A j).map (fun p => p.1.getD l 0)).sum

/-- The clustering objective from the spec: summed within-cluster squared
Euclidean distance of each observation to its assigned center. -/
def objective (X : Matrix) (A : List ℕ) (C : Matrix) : ℚ :=
  ((X.zip A).map (fun p => sqDist p.1 (C.getD (p.2 - 1) []))).sum

/-- Decides, mirroring the control flow of the main loop, that no
empty-cluster reseed happens anywhere in a run (so the RNG is never
consulted): every iteration that reaches the update step has every cluster
non-empty. The update is evaluated with a dummy RNG, which is sound
because a reseed-free update never reads the RNG. -/
def reseedFreeLoop (X : Matrix) (tol : ℚ) (k d : ℕ) : Matrix → List ℕ → ℕ → Bool
  | _, _, 0 => true
  | centers, old, fuel + 1 =>
    let A := find_closest_centers X centers
    if A = old then true
    else
      decide (∀ j, j < k → 0 < countIn X A j) &&
      (if centerChange (updateCenters X A k d (fun _ => 0) 0) centers < tol then true
       else reseedFreeLoop X tol k d (updateCenters X A k d (fun _ => 0) 0) A fuel)

/-- A whole run of the engine is reseed-free. -/
def reseedFree (X C : Matrix) (max_iter : ℤ) (tol : ℚ) : Bool :=
  reseedFreeLoop X tol C.length (X.headD []).length C
    (List.replicate X.length 0) max_iter.toNat

/-- Bounds-checked accumulation step: the C++ indexes `counts` and
`new_centers` at `assignments[j] - 1`, which is in bounds exactly when
the assignment value lies in `[1, k]`. -/
def accStepChecked (k : ℕ) (s : List ℕ × Matrix) (p : List ℚ × ℕ) :
    Option (List ℕ × Matrix) :=
  if 1 ≤ p.2 ∧ p.2 - 1 < k then some (accStep s p) else none

/-- Bounds-checked accumulation phase: fails if any access is out of range. -/
def accumulateChecked (X : Matrix) (A : List ℕ) (k d : ℕ) : Option (List ℕ × Matrix) :=
  (X.zip A).foldlM (accStepChecked k)
    (List.replicate k 0, List.replicate k (List.replicate d 0))

/-- Bounds-checked divide/reseed phase: the division happens only behind
the `counts[j] > 0` guard (so the divisor is non-zero on that branch), and
the reseed reads row `rng t` of `X`, in bounds exactly when `rng t < n`. -/
def finalizeAuxChecked (X : Matrix) (rng : ℕ → ℕ) :
    List (ℕ × List ℚ) → ℕ → Option Matrix
  | [], _ => some []
  | p :: rest, t =>
    if 0 < p.1 then
      (finalizeAuxChecked X rng rest t).map
        (fun r => (p.2.map (fun q => q / (p.1 : ℚ))) :: r)
    else if h : rng t < X.length then
      (finalizeAuxChecked X rng rest (t + 1)).map (fun r => X.get ⟨rng t, h⟩ :: r)
    else none

/-- Bounds-checked update step: `some` exactly when every vector/matrix
access is in bounds and every division guarded. -/
def updateCentersChecked (X : Matrix) (A : List ℕ) (k d : ℕ) (rng : ℕ → ℕ) (t : ℕ) :
    Option Matrix :=
  (accumulateChecked X A k d).bind
    (fun cs => finalizeAuxChecked X rng (cs.1.zip cs.2) t)

@[simp]
lemma sqDist_nil_left (c : List ℚ) : sqDist [] c = 0 := by
  simp [sqDist]

@[simp]
lemma sqDist_nil_right (x : List ℚ) : sqDist x [] = 0 := by
  cases x <;> simp [sqDist]

@[simp]
lemma sqDist_cons (a b : ℚ) (x c : List ℚ) :
    sqDist (a :: x) (b :: c) = (a - b) * (a - b) + sqDist x c := by
  simp [sqDist]

lemma sqDist_nonneg (x c : List ℚ) : 0 ≤ sqDist x c := by
  induction x generalizing c with
  | nil => simp
  | cons a x ih =>
    cases c with
    | nil => simp
    | cons b c =>
      have h1 := mul_self_nonneg (a - b)
      have h2 := ih c
      simp only [sqDist_cons]
      linarith

lemma sqDist_self (x : List ℚ) : sqDist x x = 0 := by
  induction x with
  | nil => simp
  | cons a x ih => simp [ih]

lemma sqDist_pos (x c : List ℚ) (hlen : x.length = c.length) (hne : x ≠ c) :
    0 < sqDist x c := by
  induction x generalizing c with
  | nil =>
    cases c with
    | nil => exact absurd rfl hne
    | cons b c => simp at hlen
  | cons a x ih =>
    cases c with
    | nil => simp at hlen
    | cons b c =>
      by_cases hab : a = b
      · subst hab
        have hxc : x ≠ c := fun h => hne (by rw [h])
        have := ih c (by simpa using hlen) hxc
        have h1 := mul_self_nonneg (a - a)
        simp only [sqDist_cons]
        linarith
      · have h1 : 0 < (a - b) * (a - b) := mul_self_pos.2 (sub_ne_zero.2 hab)
        have h2 := sqDist_nonneg x c
        simp only [sqDist_cons]
        linarith

lemma centerChange_nonneg (newC C : Matrix) : 0 ≤ centerChange newC C := by
  apply List.sum_nonneg
  intro q hq
  obtain ⟨p, _, rfl⟩ := List.mem_map.1 hq
  exact sqDist_nonneg _ _

lemma centerChange_self (C : Matrix) : centerChange C C = 0 := by
  induction C with
  | nil => simp [centerChange]
  | cons r C ih =>
    simp only [centerChange, List.zip_cons_cons, List.map_cons, List.sum_cons] at *
    rw [sqDist_self, ih]
    ring

lemma bestClusterAux_bounds (x : List ℚ) :
    ∀ (cs : List (List ℚ)) (j : ℕ) (m : Option ℚ) (b : ℕ), b ≤ j →
      b ≤ bestClusterAux x cs j m b ∧ bestClusterAux x cs j m b ≤ j + cs.length := by
  intro cs
  induction cs with
  | nil => intro j m b hb; simpa [bestClusterAux] using hb
  | cons c rest ih =>
    intro j m b hb
    cases m with
    | none =>
      have h := ih (j + 1) (some (sqDist x c)) (j + 1) (le_refl _)
      simp only [bestClusterAux]
      exact ⟨le_trans (by omega) h.1, by simpa [Nat.add_assoc, Nat.add_comm 1] using h.2⟩
    | some mm =>
      by_cases hlt : sqDist x c < mm
      · have h := ih (j + 1) (some (sqDist x c)) (j + 1) (le_refl _)
        simp only [bestClusterAux, if_pos hlt]
        exact ⟨le_trans (by omega) h.1, by simpa [Nat.add_assoc, Nat.add_comm 1] using h.2⟩
      · have h := ih (j + 1) (some mm) b (by omega)
        simp only [bestClusterAux, if_neg hlt]
        exact ⟨h.1, by simpa [Nat.add_assoc, Nat.add_comm 1] using h.2⟩

lemma bestClusterAux_pos (x : List ℚ) (c : List ℚ) (rest : List (List ℚ)) (j b : ℕ) :
    j + 1 ≤ bestClusterAux x (c :: rest) j none b := by
  have h := bestClusterAux_bounds x rest (j + 1) (some (sqDist x c)) (j + 1) (le_refl _)
  simpa only [bestClusterAux] using h.1

lemma find_closest_length (X C : Matrix) :
    (find_closest_centers X C).length = X.length := by
  simp [find_closest_centers]

lemma find_closest_range (X C : Matrix) (hk : 1 ≤ C.length) :
    ∀ a ∈ find_closest_centers X C, 1 ≤ a ∧ a ≤ C.length := by
  intro a ha
  obtain ⟨x, _, rfl⟩ := List.mem_map.1 ha
  cases C with
  | nil => simp at hk
  | cons c rest =>
    constructor
    · exact bestClusterAux_pos x c rest 0 0
    · have h := (bestClusterAux_bounds x (c :: rest) 0 none 0 (le_refl _)).2
      omega

lemma find_closest_ne_zeros (X C : Matrix) (hn : 1 ≤ X.length) (hk : 1 ≤ C.length) :
    find_closest_centers X C ≠ List.replicate X.length 0 := by
  intro h
  cases X with
  | nil => simp at hn
  | cons x X' =>
    have hmem : bestClusterAux x C 0 none 0 ∈ find_closest_centers (x :: X') C := by
      simp [find_closest_centers]
    have h1 := (find_closest_range (x :: X') C hk _ hmem).1
    rw [h] at hmem
    have h0 := List.eq_of_mem_replicate hmem
    omega

lemma getD_set_self {α : Type} (l : List α) (j : ℕ) (v dflt : α) (h : j < l.length) :
    (l.set j v).getD j dflt = v := by
  rw [List.getD_eq_getD_get?, List.get?_eq_getElem?, List.getElem?_set_eq_of_lt v h]
  rfl

lemma getD_set_ne {α : Type} (l : List α) (i j : ℕ) (v dflt : α) (h : i ≠ j) :
    (l.set i v).getD j dflt = l.getD j dflt := by
  rw [List.getD_eq_getD_get?, List.getD_eq_getD_get?, List.get?_eq_getElem?,
    List.get?_eq_getElem?, List.getElem?_set_ne h]

lemma getD_replicate_lt {α : Type} :
    ∀ (k j : ℕ) (a dflt : α), j < k → (List.replicate k a).getD j dflt = a := by
  intro k
  induction k with
  | zero => intro j a dflt h; omega
  | succ k ih =>
    intro j a dflt h
    cases j with
    | zero => simp [List.replicate_succ]
    | succ j =>
      rw [List.replicate_succ, List.getD_cons_succ]
      exact ih j a dflt (by omega)

lemma foldl_accStep_spec (k : ℕ) :
    ∀ (L : List (List ℚ × ℕ)) (cs : List ℕ) (ns : Matrix),
      cs.length = k → ns.length = k →
      (∀ p ∈ L, 1 ≤ p.2 ∧ p.2 ≤ k) →
      (L.foldl accStep (cs, ns)).1.length = k ∧
      (L.foldl accStep (cs, ns)).2.length = k ∧
      ∀ j, j < k →
        (L.foldl accStep (cs, ns)).1.getD j 0
          = cs.getD j 0 + (L.filter (fun p => p.2 == j + 1)).length ∧
        (L.foldl accStep (cs, ns)).2.getD j []
          = ((L.filter (fun p => p.2 == j + 1)).map Prod.fst).foldl addRow (ns.getD j []) := by
  intro L
  induction L with
  | nil =>
    intro cs ns hcs hns _
    simp [hcs, hns]
  | cons p L ih =>
    intro cs ns hcs hns hL
    have hp := hL p (by simp)
    have hidx : p.2 - 1 < k := by omega
    have hstep : accStep (cs, ns) p
        = (cs.set (p.2 - 1) (cs.getD (p.2 - 1) 0 + 1),
           ns.set (p.2 - 1) (addRow (ns.getD (p.2 - 1) []) p.1)) := rfl
    have hcs' : (cs.set (p.2 - 1) (cs.getD (p.2 - 1) 0 + 1)).length = k := by
      simp [hcs]
    have hns' : (ns.set (p.2 - 1) (addRow (ns.getD (p.2 - 1) []) p.1)).length = k := by
      simp [hns]
    have hL' : ∀ q ∈ L, 1 ≤ q.2 ∧ q.2 ≤ k := fun q hq => hL q (by simp [hq])
    have ihh := ih _ _ hcs' hns' hL'
    rw [List.foldl_cons, hstep]
    refine ⟨ihh.1, ihh.2.1, ?_⟩
    intro j hj
    have hjj := ihh.2.2 j hj
    by_cases hcase : p.2 = j + 1
    · have hii : p.2 - 1 = j := by omega
      have hfil : (p :: L).filter (fun q => q.2 == j + 1)
          = p :: L.filter (fun q => q.2 == j + 1) := by
        simp [List.filter_cons, hcase]
      constructor
      · rw [hjj.1, hfil, hii, getD_set_self cs j _ 0 (by omega)]
        simp
        omega
      · rw [hjj.2, hfil, hii, getD_set_self ns j _ [] (by omega)]
        simp
    · have hii : p.2 - 1 ≠ j := by omega
      have hfil : (p :: L).filter (fun q => q.2 == j + 1)
          = L.filter (fun q => q.2 == j + 1) := by
        simp [List.filter_cons, hcase]
      constructor
      · rw [hjj.1, hfil, getD_set_ne cs _ j _ 0 hii]
      · rw [hjj.2, hfil, getD_set_ne ns _ j _ [] hii]

lemma zip_mem_right {α β : Type} (l1 : List α) (l2 : List β) (p : α × β)
    (h : p ∈ l1.zip l2) : p.2 ∈ l2 :=
  (List.of_mem_zip h).2

lemma accumulate_spec (X : Matrix) (A : List ℕ) (k d : ℕ)
    (hA : ∀ a ∈ A, 1 ≤ a ∧ a ≤ k) :
    (accumulate X A k d).1.length = k ∧ (accumulate X A k d).2.length = k ∧
    ∀ j, j < k →
      (accumulate X A k d).1.getD j 0 = countIn X A j ∧
      (accumulate X A k d).2.getD j []
        = ((assignedPairs X A j).map Prod.fst).foldl addRow (List.replicate d 0) := by
  have hzip : ∀ p ∈ X.zip A, 1 ≤ p.2 ∧ p.2 ≤ k := by
    intro p hp
    exact hA p.2 (zip_mem_right X A p hp)
  have h := foldl_accStep_spec k (X.zip A) (List.replicate k 0)
    (List.replicate k (List.replicate d 0)) (by simp) (by simp) hzip
  refine ⟨h.1, h.2.1, ?_⟩
  intro j hj
  have hjj := h.2.2 j hj
  constructor
  · rw [accumulate, hjj.1, getD_replicate_lt k j 0 0 hj]
    simp [countIn, assignedPairs]
  · rw [accumulate, hjj.2, getD_replicate_lt k j (List.replicate d 0) [] hj]
    simp [assignedPairs]

lemma addRow_length (x y : List ℚ) (d : ℕ) (hx : x.length = d) (hy : y.length = d) :
    (addRow x y).length = d := by
  simp [addRow, hx, hy]

lemma addRow_getD :
    ∀ (x y : List ℚ), x.length = y.length →
      ∀ l, (addRow x y).getD l 0 = x.getD l 0 + y.getD l 0 := by
  intro x
  induction x with
  | nil =>
    intro y hlen l
    cases y with
    | nil => simp [addRow]
    | cons b y => simp at hlen
  | cons a x ih =>
    intro y hlen l
    cases y with
    | nil => simp at hlen
    | cons b y =>
      cases l with
      | zero => simp [addRow]
      | succ l =>
        have := ih y (by simpa using hlen) l
        simpa [addRow] using this

lemma foldl_addRow_length (d : ℕ) :
    ∀ (rows : List (List ℚ)) (init : List ℚ), init.length = d →
      (∀ r ∈ rows, r.length = d) → (rows.foldl addRow init).length = d := by
  intro rows
  induction rows with
  | nil => intro init hinit _; simpa using hinit
  | cons r rows ih =>
    intro init hinit hrows
    rw [List.foldl_cons]
    exact ih (addRow init r)
      (addRow_length init r d hinit (hrows r (by simp)))
      (fun q hq => hrows q (by simp [hq]))

lemma foldl_addRow_getD (d : ℕ) :
    ∀ (rows : List (List ℚ)) (init : List ℚ), init.length = d →
      (∀ r ∈ rows, r.length = d) →
      ∀ l, (rows.foldl addRow init).getD l 0
        = init.getD l 0 + (rows.map (fun r => r.getD l 0)).sum := by
  intro rows
  induction rows with
  | nil => intro init _ _ l; simp
  | cons r rows ih =>
    intro init hinit hrows l
    rw [List.foldl_cons]
    have hr : r.length = d := hrows r (by simp)
    have := ih (addRow init r) (addRow_length init r d hinit hr)
      (fun q hq => hrows q (by simp [hq])) l
    rw [this, addRow_getD init r (by rw [hinit, hr])]
    simp
    ring

lemma finalizeAux_length (X : Matrix) (rng : ℕ → ℕ) :
    ∀ (L : List (ℕ × List ℚ)) (t : ℕ), (finalizeAux X rng L t).length = L.length := by
  intro L
  induction L with
  | nil => intro t; simp [finalizeAux]
  | cons p rest ih =>
    intro t
    by_cases h : 0 < p.1
    · simp [finalizeAux, h, ih]
    · simp [finalizeAux, h, ih]

lemma finalizeAux_get? (X : Matrix) (rng : ℕ → ℕ) :
    ∀ (L : List (ℕ × List ℚ)) (t j : ℕ) (cnt : ℕ) (s : List ℚ),
      L.get? j = some (cnt, s) →
      (finalizeAux X rng L t).get? j = some (
        if 0 < cnt then s.map (fun q => q / (cnt : ℚ))
        else X.getD (rng (t + numReseeds ((L.take j).map Prod.fst))) []) := by
  intro L
  induction L with
  | nil => intro t j cnt s h; simp at h
  | cons p rest ih =>
    intro t j cnt s h
    cases j with
    | zero =>
      simp at h
      obtain ⟨h1, h2⟩ : p.1 = cnt ∧ p.2 = s := by
        constructor <;> rw [h]
      subst h1; subst h2
      by_cases hc : 0 < p.1
      · simp [finalizeAux, hc, numReseeds]
      · simp [finalizeAux, hc, numReseeds]
    | succ j =>
      simp only [List.get?_cons_succ] at h
      by_cases hc : 0 < p.1
      · have := ih t j cnt s h
        have hres : numReseeds (((p :: rest).take (j + 1)).map Prod.fst)
            = numReseeds ((rest.take j).map Prod.fst) := by
          have hp0 : ¬ p.1 = 0 := by omega
          simp [numReseeds, List.filter_cons, hp0]
        rw [finalizeAux, if_pos hc, List.get?_cons_succ, this, hres]
      · have := ih (t + 1) j cnt s h
        have hres : t + numReseeds (((p :: rest).take (j + 1)).map Prod.fst)
            = t + 1 + numReseeds ((rest.take j).map Prod.fst) := by
          have hp0 : p.1 = 0 := by omega
          simp [numReseeds, List.filter_cons, hp0]
          omega
        rw [finalizeAux, if_neg hc, List.get?_cons_succ, this, hres]

lemma map_fst_take_zip {α β : Type} :
    ∀ (l1 : List α) (l2 : List β) (j : ℕ), l1.length = l2.length →
      (((l1.zip l2).take j).map Prod.fst) = l1.take j := by
  intro l1
  induction l1 with
  | nil =>
    intro l2 j hlen
    cases l2 with
    | nil => simp
    | cons b l2 => simp at hlen
  | cons a l1 ih =>
    intro l2 j hlen
    cases l2 with
    | nil => simp at hlen
    | cons b l2 =>
      cases j with
      | zero => simp
      | succ j =>
        simp only [List.zip_cons_cons, List.take_succ_cons, List.map_cons, List.take]
        exact congrArg (fun w => a :: w) (ih l2 j (by simpa using hlen))

lemma get?_zip_of_get? {α β : Type} :
    ∀ (l1 : List α) (l2 : List β) (j : ℕ) (x : α) (y : β),
      l1.get? j = some x → l2.get? j = some y → (l1.zip l2).get? j = some (x, y) := by
  intro l1
  induction l1 with
  | nil => intro l2 j x y h1 _; simp at h1
  | cons a l1 ih =>
    intro l2 j x y h1 h2
    cases l2 with
    | nil => simp at h2
    | cons b l2 =>
      cases j with
      | zero =>
        simp at h1 h2
        simp [h1, h2]
      | succ j =>
        simp only [List.get?_cons_succ] at h1 h2
        simpa only [List.zip_cons_cons, List.get?_cons_succ] using ih l2 j x y h1 h2

lemma get?_eq_some_getD {α : Type} (l : List α) (j : ℕ) (dflt : α) (h : j < l.length) :
    l.get? j = some (l.getD j dflt) := by
  rw [List.getD_eq_getElem l dflt h, List.get?_eq_getElem?]
  exact List.getElem?_eq_getElem h

lemma getD_of_get?_some {α : Type} (l : List α) (j : ℕ) (dflt v : α)
    (h : l.get? j = some v) : l.getD j dflt = v := by
  rw [List.getD_eq_getD_get?, h]
  rfl

lemma getD_replicate_self {α : Type} (k j : ℕ) (a : α) :
    (List.replicate k a).getD j a = a := by
  by_cases h : j < k
  · exact getD_replicate_lt k j a a h
  · apply List.getD_eq_default
    simp
    omega

lemma getD_map_div (s : List ℚ) (c : ℚ) :
    ∀ l, (s.map (fun q => q / c)).getD l 0 = s.getD l 0 / c := by
  induction s with
  | nil => intro l; simp
  | cons a s ih =>
    intro l
    cases l with
    | zero => simp
    | succ l => simpa using ih l

lemma assigned_row_mem (X : Matrix) (A : List ℕ) (j : ℕ) (r : List ℚ)
    (hr : r ∈ (assignedPairs X A j).map Prod.fst) : r ∈ X := by
  obtain ⟨p, hp, rfl⟩ := List.mem_map.1 hr
  exact (List.of_mem_zip (List.mem_of_mem_filter hp)).1

lemma updateCenters_length (X : Matrix) (A : List ℕ) (k d : ℕ) (rng : ℕ → ℕ) (t : ℕ)
    (hA : ∀ a ∈ A, 1 ≤ a ∧ a ≤ k) : (updateCenters X A k d rng t).length = k := by
  have hacc := accumulate_spec X A k d hA
  rw [updateCenters, finalizeAux_length, List.length_zip, hacc.1, hacc.2.1]
  exact Nat.min_self k

lemma updateCenters_spec (X : Matrix) (A : List ℕ) (k d : ℕ) (rng : ℕ → ℕ) (t : ℕ)
    (hXd : ∀ r ∈ X, r.length = d) (hA : ∀ a ∈ A, 1 ≤ a ∧ a ≤ k) :
    ∀ j, j < k →
      (0 < countIn X A j →
        ((updateCenters X A k d rng t).getD j []).length = d ∧
        ∀ l, ((updateCenters X A k d rng t).getD j []).getD l 0
          = clusterSum X A j l / (countIn X A j : ℚ)) ∧
      (countIn X A j = 0 →
        (updateCenters X A k d rng t).getD j []
          = X.getD (rng (t + numReseeds ((accumulate X A k d).1.take j))) []) := by
  intro j hj
  obtain ⟨hc_len, hs_len, hjspec⟩ := accumulate_spec X A k d hA
  have hcj := (hjspec j hj).1
  have hsj := (hjspec j hj).2
  have hzip := get?_zip_of_get? (accumulate X A k d).1 (accumulate X A k d).2 j _ _
    (get?_eq_some_getD (accumulate X A k d).1 j 0 (by omega))
    (get?_eq_some_getD (accumulate X A k d).2 j [] (by omega))
  have hfin := finalizeAux_get? X rng ((accumulate X A k d).1.zip (accumulate X A k d).2)
    t j _ _ hzip
  have htake : ((((accumulate X A k d).1.zip (accumulate X A k d).2).take j).map Prod.fst)
      = (accumulate X A k d).1.take j :=
    map_fst_take_zip (accumulate X A k d).1 (accumulate X A k d).2 j (by omega)
  rw [htake] at hfin
  have hval := getD_of_get?_some _ j [] _ hfin
  rw [updateCenters]
  have hrows : ∀ r ∈ (assignedPairs X A j).map Prod.fst, r.length = d :=
    fun r hr => hXd r (assigned_row_mem X A j r hr)
  constructor
  · intro hpos
    have hc0 : 0 < (accumulate X A k d).1.getD j 0 := by rw [hcj]; exact hpos
    rw [hval, if_pos hc0]
    have hslen : ((accumulate X A k d).2.getD j []).length = d := by
      rw [hsj]
      exact foldl_addRow_length d _ _ (by simp) hrows
    constructor
    · simpa using hslen
    · intro l
      rw [getD_map_div]
      rw [hsj, foldl_addRow_getD d _ _ (by simp) hrows l, List.map_map]
      rw [getD_replicate_self d l 0, zero_add, hcj]
      rfl
  · intro hzero
    rw [hval, if_neg (by rw [hcj, hzero]; omega)]

lemma finalizeAux_all_pos (X : Matrix) (rng rng' : ℕ → ℕ) :
    ∀ (L : List (ℕ × List ℚ)) (t t' : ℕ), (∀ p ∈ L, 0 < p.1) →
      finalizeAux X rng L t = finalizeAux X rng' L t' := by
  intro L
  induction L with
  | nil => intro t t' _; simp [finalizeAux]
  | cons p rest ih =>
    intro t t' hpos
    have hp := hpos p (by simp)
    rw [finalizeAux, finalizeAux, if_pos hp, if_pos hp,
      ih t t' (fun q hq => hpos q (by simp [hq]))]

lemma updateCenters_rng_irrel (X : Matrix) (A : List ℕ) (k d : ℕ)
    (rng rng' : ℕ → ℕ) (t t' : ℕ)
    (hA : ∀ a ∈ A, 1 ≤ a ∧ a ≤ k) (hpos : ∀ j, j < k → 0 < countIn X A j) :
    updateCenters X A k d rng t = updateCenters X A k d rng' t' := by
  obtain ⟨hc_len, hs_len, hjspec⟩ := accumulate_spec X A k d hA
  apply finalizeAux_all_pos
  intro p hp
  have hmem : p.1 ∈ (accumulate X A k d).1 :=
    List.map_fst_zip (accumulate X A k d).1 (accumulate X A k d).2 (by omega) ▸
      List.mem_map.2 ⟨p, hp, rfl⟩
  obtain ⟨j, hjlt, hjp⟩ := List.mem_iff_getElem.1 hmem
  have : (accumulate X A k d).1.getD j 0 = p.1 := by
    rw [List.getD_eq_getElem _ 0 hjlt, hjp]
  rw [← hjp]
  have hcnt := (hjspec j (by omega)).1
  rw [List.getD_eq_getElem _ 0 hjlt] at hcnt
  rw [hjp] at hcnt ⊢
  rw [hcnt]
  exact hpos j (by omega)

lemma kmLoop_tol_nonpos (X : Matrix) (rng : ℕ → ℕ) (tol : ℚ) (mi : ℤ) (k d : ℕ)
    (htol : tol ≤ 0) :
    ∀ (fuel : ℕ) (centers : Matrix) (old : List ℕ) (i t : ℕ),
      (kmLoop X rng tol mi k d centers old i fuel t).reason ≠ .tolerance := by
  intro fuel
  induction fuel with
  | zero => intro centers old i t; simp [kmLoop]
  | succ fuel ih =>
    intro centers old i t
    simp only [kmLoop]
    by_cases hA : find_closest_centers X centers = old
    · simp [hA]
    · have hcc := centerChange_nonneg
        (updateCenters X (find_closest_centers X centers) k d rng t) centers
      have hnlt : ¬ (centerChange
          (updateCenters X (find_closest_centers X centers) k d rng t) centers < tol) := by
        linarith
      simp only [if_neg hA, if_neg hnlt]
      exact ih _ _ _ _

lemma kmLoop_stability_iter (X : Matrix) (rng : ℕ → ℕ) (tol : ℚ) (mi : ℤ) (k d : ℕ) :
    ∀ (fuel : ℕ) (centers : Matrix) (old : List ℕ) (i t : ℕ),
      (kmLoop X rng tol mi k d centers old i fuel t).reason = .stability →
      (i : ℤ) ≤ (kmLoop X rng tol mi k d centers old i fuel t).iter := by
  intro fuel
  induction fuel with
  | zero => intro centers old i t h; simp [kmLoop] at h
  | succ fuel ih =>
    intro centers old i t
    simp only [kmLoop]
    by_cases hA : find_closest_centers X centers = old
    · simp [hA]
    · simp only [if_neg hA]
      by_cases hch : centerChange
          (updateCenters X (find_closest_centers X centers) k d rng t) centers < tol
      · simp [hch]
      · simp only [if_neg hch]
        intro h
        have := ih _ _ (i + 1) _ h
        push_cast at this ⊢
        linarith

lemma kmLoop_cluster_inv (X : Matrix) (rng : ℕ → ℕ) (tol : ℚ) (mi : ℤ) (k d : ℕ)
    (hk : 1 ≤ k) :
    ∀ (fuel : ℕ) (centers : Matrix) (old : List ℕ) (i t : ℕ),
      centers.length = k → (∀ a ∈ old, 1 ≤ a ∧ a ≤ k) →
      ∀ a ∈ (kmLoop X rng tol mi k d centers old i fuel t).cluster, 1 ≤ a ∧ a ≤ k := by
  intro fuel
  induction fuel with
  | zero => intro centers old i t _ hold; simpa [kmLoop] using hold
  | succ fuel ih =>
    intro centers old i t hlen hold
    have hrange : ∀ a ∈ find_closest_centers X centers, 1 ≤ a ∧ a ≤ k := by
      intro a ha
      have := find_closest_range X centers (by omega) a ha
      omega
    simp only [kmLoop]
    by_cases hA : find_closest_centers X centers = old
    · simpa [hA] using hold
    · simp only [if_neg hA]
      by_cases hch : centerChange
          (updateCenters X (find_closest_centers X centers) k d rng t) centers < tol
      · simpa [hch] using hrange
      · simp only [if_neg hch]
        exact ih _ _ (i + 1) _
          (updateCenters_length X _ k d rng t hrange) hrange

lemma kmLoop_tolerance_centers (X : Matrix) (rng : ℕ → ℕ) (tol : ℚ) (mi : ℤ) (k d : ℕ) :
    ∀ (fuel : ℕ) (centers : Matrix) (old : List ℕ) (i t : ℕ),
      (kmLoop X rng tol mi k d centers old i fuel t).reason = .tolerance →
      ∃ t', (kmLoop X rng tol mi k d centers old i fuel t).centers
        = updateCenters X (kmLoop X rng tol mi k d centers old i fuel t).cluster k d rng t' := by
  intro fuel
  induction fuel with
  | zero => intro centers old i t h; simp [kmLoop] at h
  | succ fuel ih =>
    intro centers old i t
    simp only [kmLoop]
    by_cases hA : find_closest_centers X centers = old
    · simp [hA]
    · simp only [if_neg hA]
      by_cases hch : centerChange
          (updateCenters X (find_closest_centers X centers) k d rng t) centers < tol
      · intro _
        exact ⟨t, by simp [hch]⟩
      · simp only [if_neg hch]
        exact ih _ _ (i + 1) _

lemma foldlM_accStepChecked (k : ℕ) :
    ∀ (L : List (List ℚ × ℕ)) (init : List ℕ × Matrix),
      (∀ p ∈ L, 1 ≤ p.2 ∧ p.2 - 1 < k) →
      L.foldlM (accStepChecked k) init = some (L.foldl accStep init) := by
  intro L
  induction L with
  | nil => intro init _; rfl
  | cons p L ih =>
    intro init hL
    have hp := hL p (by simp)
    rw [List.foldlM_cons, List.foldl_cons, accStepChecked, if_pos hp]
    exact ih (accStep init p) (fun q hq => hL q (by simp [hq]))

lemma finalizeAuxChecked_eq (X : Matrix) (rng : ℕ → ℕ) (hrng : ∀ s, rng s < X.length) :
    ∀ (L : List (ℕ × List ℚ)) (t : ℕ),
      finalizeAuxChecked X rng L t = some (finalizeAux X rng L t) := by
  intro L
  induction L with
  | nil => intro t; rfl
  | cons p rest ih =>
    intro t
    by_cases hc : 0 < p.1
    · rw [finalizeAuxChecked, finalizeAux, if_pos hc, if_pos hc, ih t]
      rfl
    · rw [finalizeAuxChecked, finalizeAux, if_neg hc, if_neg hc, dif_pos (hrng t), ih (t + 1)]
      have hget : X.get ⟨rng t, hrng t⟩ = X.getD (rng t) [] := by
        rw [List.getD_eq_getElem X [] (hrng t)]
        rfl
      rw [hget]
      rfl

lemma updateCentersChecked_eq (X : Matrix) (A : List ℕ) (k d : ℕ) (rng : ℕ → ℕ) (t : ℕ)
    (hA : ∀ a ∈ A, 1 ≤ a ∧ a ≤ k) (hrng : ∀ s, rng s < X.length) :
    updateCentersChecked X A k d rng t = some (updateCenters X A k d rng t) := by
  have hzip : ∀ p ∈ X.zip A, 1 ≤ p.2 ∧ p.2 - 1 < k := by
    intro p hp
    have := hA p.2 (zip_mem_right X A p hp)
    omega
  rw [updateCentersChecked, accumulateChecked,
    foldlM_accStepChecked k (X.zip A) _ hzip]
  exact finalizeAuxChecked_eq X rng hrng _ t

lemma sum_map_partition (g : List ℚ × ℕ → ℚ) (k : ℕ) :
    ∀ (L : List (List ℚ × ℕ)), (∀ p ∈ L, 1 ≤ p.2 ∧ p.2 ≤ k) →
      (L.map g).sum
        = ∑ j in Finset.range k, ((L.filter (fun p => p.2 == j + 1)).map g).sum := by
  intro L
  induction L with
  | nil => simp
  | cons p L ih =>
    intro hL
    have hp := hL p (by simp)
    have hj0 : p.2 - 1 < k := by omega
    rw [List.map_cons, List.sum_cons, ih (fun q hq => hL q (by simp [hq]))]
    have hsplit : ∀ j ∈ Finset.range k,
        ((List.filter (fun q => q.2 == j + 1) (p :: L)).map g).sum
          = (if j = p.2 - 1 then g p else 0)
            + ((L.filter (fun q => q.2 == j + 1)).map g).sum := by
      intro j _
      by_cases hcase : p.2 = j + 1
      · have hji : j = p.2 - 1 := by omega
        rw [List.filter_cons, if_pos (by simp [hcase]), List.map_cons, List.sum_cons,
          if_pos hji]
      · have hji : ¬ j = p.2 - 1 := by omega
        rw [List.filter_cons, if_neg (by simp [hcase]), if_neg hji, zero_add]
    rw [Finset.sum_congr rfl hsplit, Finset.sum_add_distrib,
      Finset.sum_ite_eq' (Finset.range k) (p.2 - 1) (fun _ => g p),
      if_pos (Finset.mem_range.2 hj0)]

lemma sum_sq_dev (c : ℚ) :
    ∀ (v : List ℚ), (v.map (fun q => (q - c) * (q - c))).sum
      = (v.map (fun q => q * q)).sum - 2 * c * v.sum + (v.length : ℚ) * (c * c) := by
  intro v
  induction v with
  | nil => simp
  | cons a v ih =>
    simp only [List.map_cons, List.sum_cons, List.length_cons, ih]
    push_cast
    ring

lemma mean_min (v : List ℚ) (hv : v ≠ []) (c : ℚ) :
    (v.map (fun q => (q - v.sum / (v.length : ℚ)) * (q - v.sum / (v.length : ℚ)))).sum
      ≤ (v.map (fun q => (q - c) * (q - c))).sum := by
  have hN : 0 < ((v.length : ℕ) : ℚ) := by
    exact_mod_cast List.length_pos.2 hv
  rw [sum_sq_dev, sum_sq_dev]
  set m := v.sum / ((v.length : ℕ) : ℚ) with hm
  have hS : ((v.length : ℕ) : ℚ) * m = v.sum := by
    rw [hm]
    field_simp
  have h1 : 2 * c * (((v.length : ℕ) : ℚ) * m) = 2 * c * v.sum := by rw [hS]
  have h2 : 2 * m * (((v.length : ℕ) : ℚ) * m) = 2 * m * v.sum := by rw [hS]
  nlinarith [mul_nonneg hN.le (mul_self_nonneg (c - m)), h1, h2]

lemma sum_map_finset_swap {α : Type} (F : List α) (d : ℕ) (g : α → ℕ → ℚ) :
    (F.map (fun r => ∑ l in Finset.range d, g r l)).sum
      = ∑ l in Finset.range d, (F.map (fun r => g r l)).sum := by
  induction F with
  | nil => simp
  | cons r F ih => simp [ih, Finset.sum_add_distrib]

lemma sqDist_eq_sum_range :
    ∀ (d : ℕ) (x c : List ℚ), x.length = d → c.length = d →
      sqDist x c = ∑ l in Finset.range d,
        ((x.getD l 0 - c.getD l 0) * (x.getD l 0 - c.getD l 0)) := by
  intro d
  induction d with
  | zero =>
    intro x c hx hc
    rw [List.length_eq_zero.1 hx, List.length_eq_zero.1 hc]
    simp
  | succ d ih =>
    intro x c hx hc
    cases x with
    | nil => simp at hx
    | cons a x =>
      cases c with
      | nil => simp at hc
      | cons b c =>
        rw [sqDist_cons, ih x c (by simpa using hx) (by simpa using hc),
          Finset.sum_range_succ']
        simp only [List.getD_cons_succ, List.getD_cons_zero]
        ring

lemma objective_decomp (X : Matrix) (A : List ℕ) (C : Matrix) (k : ℕ)
    (hA : ∀ a ∈ A, 1 ≤ a ∧ a ≤ k) :
    objective X A C = ∑ j in Finset.range k,
      ((assignedPairs X A j).map (fun p => sqDist p.1 (C.getD j []))).sum := by
  have hzip : ∀ p ∈ X.zip A, 1 ≤ p.2 ∧ p.2 ≤ k :=
    fun p hp => hA p.2 (zip_mem_right X A p hp)
  rw [objective, sum_map_partition _ k (X.zip A) hzip]
  apply Finset.sum_congr rfl
  intro j _
  simp only [assignedPairs]
  apply congrArg List.sum
  apply List.map_congr_left
  intro p hp
  have hpj : p.2 = j + 1 := by simpa using (List.mem_filter.1 hp).2
  rw [hpj]
  simp

lemma cluster_mean_le (F : List (List ℚ)) (d : ℕ) (mrow crow : List ℚ)
    (hF : ∀ r ∈ F, r.length = d) (hm : mrow.length = d) (hc : crow.length = d)
    (hne : F ≠ [])
    (hmean : ∀ l, mrow.getD l 0 = (F.map (fun r => r.getD l 0)).sum / (F.length : ℚ)) :
    (F.map (fun r => sqDist r mrow)).sum ≤ (F.map (fun r => sqDist r crow)).sum := by
  have hexp : ∀ (w : List ℚ), w.length = d →
      (F.map (fun r => sqDist r w)).sum
        = ∑ l in Finset.range d,
          (F.map (fun r => (r.getD l 0 - w.getD l 0) * (r.getD l 0 - w.getD l 0))).sum := by
    intro w hw
    rw [← sum_map_finset_swap F d (fun r l => (r.getD l 0 - w.getD l 0) * (r.getD l 0 - w.getD l 0))]
    apply congrArg List.sum
    apply List.map_congr_left
    intro r hr
    exact sqDist_eq_sum_range d r w (hF r hr) hw
  rw [hexp mrow hm, hexp crow hc]
  apply Finset.sum_le_sum
  intro l _
  have hvne : F.map (fun r => r.getD l 0) ≠ [] := by
    intro h
    exact hne (List.map_eq_nil_iff.1 h)
  have hmm := mean_min (F.map (fun r => r.getD l 0)) hvne (crow.getD l 0)
  rw [List.map_map, List.map_map] at hmm
  have hml : mrow.getD l 0 = (F.map (fun r => r.getD l 0)).sum
      / ((F.map (fun r => r.getD l 0)).length : ℚ) := by
    rw [List.length_map]
    exact hmean l
  calc (F.map (fun r => (r.getD l 0 - mrow.getD l 0) * (r.getD l 0 - mrow.getD l 0))).sum
      = (F.map ((fun q => (q - (F.map (fun r => r.getD l 0)).sum
          / ((F.map (fun r => r.getD l 0)).length : ℚ))
          * (q - (F.map (fun r => r.getD l 0)).sum
          / ((F.map (fun r => r.getD l 0)).length : ℚ))) ∘ (fun r => r.getD l 0))).sum := by
        apply congrArg List.sum
        apply List.map_congr_left
        intro r _
        simp only [Function.comp]
        rw [← hml]
    _ ≤ (F.map ((fun q => (q - crow.getD l 0) * (q - crow.getD l 0))
          ∘ (fun r => r.getD l 0))).sum := hmm
    _ = (F.map (fun r => (r.getD l 0 - crow.getD l 0) * (r.getD l 0 - crow.getD l 0))).sum := by
        apply congrArg List.sum
        apply List.map_congr_left
        intro r _
        simp [Function.comp]

lemma update_objective_le (X : Matrix) (A : List ℕ) (C : Matrix) (d : ℕ)
    (rng : ℕ → ℕ) (t : ℕ)
    (hXd : ∀ r ∈ X, r.length = d) (hCd : ∀ r ∈ C, r.length = d)
    (hA : ∀ a ∈ A, 1 ≤ a ∧ a ≤ C.length)
    (hne : ∀ j, j < C.length → 0 < countIn X A j) :
    objective X A (updateCenters X A C.length d rng t) ≤ objective X A C := by
  rw [objective_decomp X A _ C.length hA, objective_decomp X A C C.length hA]
  apply Finset.sum_le_sum
  intro j hj
  have hjk : j < C.length := Finset.mem_range.1 hj
  have hspec := (updateCenters_spec X A C.length d rng t hXd hA j hjk).1 (hne j hjk)
  have hFrows : ∀ r ∈ (assignedPairs X A j).map Prod.fst, r.length = d :=
    fun r hr => hXd r (assigned_row_mem X A j r hr)
  have hFne : (assignedPairs X A j).map Prod.fst ≠ [] := by
    have := hne j hjk
    rw [countIn] at this
    intro h
    rw [List.map_eq_nil_iff.1 h] at this
    simp at this
  have hcrow : (C.getD j []).length = d := by
    rw [List.getD_eq_getElem C [] hjk]
    exact hCd _ (List.getElem_mem hjk)
  have hmean : ∀ l,
      ((updateCenters X A C.length d rng t).getD j []).getD l 0
        = (((assignedPairs X A j).map Prod.fst).map (fun r => r.getD l 0)).sum
          / ((((assignedPairs X A j).map Prod.fst).length : ℕ) : ℚ) := by
    intro l
    rw [hspec.2 l, clusterSum, countIn, List.map_map, List.length_map]
    rfl
  have hkey := cluster_mean_le ((assignedPairs X A j).map Prod.fst) d
    ((updateCenters X A C.length d rng t).getD j []) (C.getD j [])
    hFrows hspec.1 hcrow hFne hmean
  rw [List.map_map, List.map_map] at hkey
  calc ((assignedPairs X A j).map
        (fun p => sqDist p.1 ((updateCenters X A C.length d rng t).getD j []))).sum
      = ((assignedPairs X A j).map
        ((fun r => sqDist r ((updateCenters X A C.length d rng t).getD j []))
          ∘ Prod.fst)).sum := by
        apply congrArg List.sum
        apply List.map_congr_left
        intro p _
        simp [Function.comp]
    _ ≤ ((assignedPairs X A j).map
        ((fun r => sqDist r (C.getD j [])) ∘ Prod.fst)).sum := hkey
    _ = ((assignedPairs X A j).map (fun p => sqDist p.1 (C.getD j []))).sum := by
        apply congrArg List.sum
        apply List.map_congr_left
        intro p _
        simp [Function.comp]

lemma bestClusterAux_stuck (x : List ℚ) :
    ∀ (cs : List (List ℚ)) (j b : ℕ), (∀ c ∈ cs, 0 < sqDist x c) →
      bestClusterAux x cs j (some 0) b = b := by
  intro cs
  induction cs with
  | nil => intro j b _; rfl
  | cons c rest ih =>
    intro j b h
    have hc := h c (by simp)
    simp only [bestClusterAux]
    rw [if_neg (by linarith)]
    exact ih (j + 1) b (fun q hq => h q (by simp [hq]))

lemma bestClusterAux_unique (x : List ℚ) :
    ∀ (l1 l2 : List (List ℚ)) (j b : ℕ) (m : Option ℚ),
      (m = none ∨ ∃ q, m = some q ∧ 0 < q) →
      (∀ c ∈ l1, 0 < sqDist x c) → (∀ c ∈ l2, 0 < sqDist x c) →
      bestClusterAux x (l1 ++ x :: l2) j m b = j + l1.length + 1 := by
  intro l1
  induction l1 with
  | nil =>
    intro l2 j b m hm h1 h2
    rcases hm with rfl | ⟨q, rfl, hq⟩
    · simp only [List.nil_append, bestClusterAux, sqDist_self]
      rw [bestClusterAux_stuck x l2 (j + 1) (j + 1) h2]
      simp
    · simp only [List.nil_append, bestClusterAux, sqDist_self]
      rw [if_pos hq, bestClusterAux_stuck x l2 (j + 1) (j + 1) h2]
      simp
  | cons c l1 ih =>
    intro l2 j b m hm h1 h2
    have hc := h1 c (by simp)
    have h1' : ∀ q ∈ l1, 0 < sqDist x q := fun q hq => h1 q (by simp [hq])
    rcases hm with rfl | ⟨q, rfl, hq⟩
    · simp only [List.cons_append, bestClusterAux, List.append_eq]
      rw [ih l2 (j + 1) (j + 1) (some (sqDist x c)) (Or.inr ⟨_, rfl, hc⟩) h1' h2,
        List.length_cons]
      omega
    · simp only [List.cons_append, bestClusterAux, List.append_eq]
      by_cases hlt : sqDist x c < q
      · rw [if_pos hlt,
          ih l2 (j + 1) (j + 1) (some (sqDist x c)) (Or.inr ⟨_, rfl, hc⟩) h1' h2,
          List.length_cons]
        omega
      · rw [if_neg hlt,
          ih l2 (j + 1) b (some q) (Or.inr ⟨q, rfl, hq⟩) h1' h2, List.length_cons]
        omega

lemma nodup_decomp_ne (l1 l2 : List (List ℚ)) (xi : List ℚ)
    (hnd : (l1 ++ xi :: l2).Nodup) :
    (∀ c ∈ l1, c ≠ xi) ∧ (∀ c ∈ l2, c ≠ xi) := by
  rw [List.nodup_append] at hnd
  obtain ⟨_, hcons, hdisj⟩ := hnd
  rw [List.nodup_cons] at hcons
  constructor
  · intro c hc hcx
    exact hdisj hc (by simp [hcx])
  · intro c hc hcx
    exact hcons.1 (hcx ▸ hc)

lemma find_closest_self (X : Matrix) (d : ℕ) (hXd : ∀ r ∈ X, r.length = d)
    (hnd : X.Nodup) :
    find_closest_centers X X = List.range' 1 X.length := by
  apply List.ext_get?
  intro i
  by_cases hi : i < X.length
  · have hdec : X.take i ++ X.getD i [] :: X.drop (i + 1) = X := by
      rw [List.getD_eq_getElem X [] hi]
      rw [List.getElem_cons_drop]
      exact List.take_append_drop i X
    have hmemi : X.getD i [] ∈ X := by
      rw [List.getD_eq_getElem X [] hi]
      exact List.getElem_mem hi
    have hnd' : (X.take i ++ X.getD i [] :: X.drop (i + 1)).Nodup := by
      rw [hdec]; exact hnd
    obtain ⟨hne1, hne2⟩ := nodup_decomp_ne _ _ _ hnd'
    have hpos1 : ∀ c ∈ X.take i, 0 < sqDist (X.getD i []) c := by
      intro c hc
      refine sqDist_pos _ _ ?_ ?_
      · rw [hXd _ hmemi, hXd _ (List.take_subset i X hc)]
      · intro h
        exact hne1 c hc (h ▸ rfl)
    have hpos2 : ∀ c ∈ X.drop (i + 1), 0 < sqDist (X.getD i []) c := by
      intro c hc
      refine sqDist_pos _ _ ?_ ?_
      · rw [hXd _ hmemi, hXd _ (List.drop_subset (i + 1) X hc)]
      · intro h
        exact hne2 c hc (h ▸ rfl)
    have hbca : bestClusterAux (X.getD i []) X 0 none 0 = i + 1 := by
      have := bestClusterAux_unique (X.getD i []) (X.take i) (X.drop (i + 1)) 0 0 none
        (Or.inl rfl) hpos1 hpos2
      rw [hdec] at this
      rw [this, List.length_take]
      omega
    rw [find_closest_centers, List.get?_map,
      get?_eq_some_getD X i [] hi, List.get?_eq_getElem?, List.getElem?_range' 1 1 hi]
    simp only [Option.map_some', Option.some.injEq, hbca]
    omega
  · rw [find_closest_centers, List.get?_map]
    have h1 : X.get? i = none := List.get?_eq_none.2 (by omega)
    have h2 : (List.range' 1 X.length).get? i = none :=
      List.get?_eq_none.2 (by simp; omega)
    rw [h1, h2]
    rfl

lemma assignedPairs_range' :
    ∀ (X : Matrix) (o j : ℕ),
      (X.zip (List.range' (o + 1) X.length)).filter (fun p => p.2 == j + 1)
        = if o ≤ j ∧ j < o + X.length then [(X.getD (j - o) [], j + 1)] else [] := by
  intro X
  induction X with
  | nil =>
    intro o j
    rw [if_neg (by simp only [List.length_nil]; omega)]
    rfl
  | cons x X ih =>
    intro o j
    have hrange : List.range' (o + 1) (x :: X).length = (o + 1) :: List.range' (o + 2) X.length := by
      simp [List.range'_succ]
    rw [hrange, List.zip_cons_cons, List.filter_cons]
    by_cases hoj : o = j
    · subst hoj
      rw [if_pos (by simp), ih (o + 1) o, if_neg (by omega)]
      simp
    · rw [if_neg (by simp; omega), ih (o + 1) j]
      by_cases hcond : o ≤ j ∧ j < o + (x :: X).length
      · have hcond' : o + 1 ≤ j ∧ j < o + 1 + X.length := by
          simp at hcond
          omega
        rw [if_pos hcond', if_pos hcond]
        have hsub : j - o = (j - (o + 1)) + 1 := by omega
        rw [hsub, List.getD_cons_succ]
      · have hcond' : ¬ (o + 1 ≤ j ∧ j < o + 1 + X.length) := by
          simp at hcond ⊢
          intro h
          have := hcond (by omega)
          omega
        rw [if_neg hcond', if_neg hcond]

lemma countIn_natural (X : Matrix) (j : ℕ) (hj : j < X.length) :
    countIn X (List.range' 1 X.length) j = 1 := by
  rw [countIn, assignedPairs]
  have := assignedPairs_range' X 0 j
  simp only [Nat.zero_add] at this
  rw [this, if_pos (by omega)]
  rfl

lemma clusterSum_natural (X : Matrix) (j l : ℕ) (hj : j < X.length) :
    clusterSum X (List.range' 1 X.length) j l = (X.getD j []).getD l 0 := by
  rw [clusterSum, assignedPairs]
  have := assignedPairs_range' X 0 j
  simp only [Nat.zero_add] at this
  rw [this, if_pos (by omega)]
  simp

lemma eq_of_getD_eq (u v : List ℚ) (hl : u.length = v.length)
    (h : ∀ l, u.getD l 0 = v.getD l 0) : u = v := by
  apply List.ext_get?
  intro n
  by_cases hn : n < u.length
  · rw [get?_eq_some_getD u n 0 hn, get?_eq_some_getD v n 0 (by omega), h n]
  · rw [List.get?_eq_none.2 (by omega), List.get?_eq_none.2 (by omega)]

lemma range'_mem_bounds (n : ℕ) : ∀ a ∈ List.range' 1 n, 1 ≤ a ∧ a ≤ n := by
  intro a ha
  have := List.mem_range'_1.1 ha
  omega

lemma updateCenters_natural (X : Matrix) (d : ℕ) (rng : ℕ → ℕ) (t : ℕ)
    (hXd : ∀ r ∈ X, r.length = d) :
    updateCenters X (List.range' 1 X.length) X.length d rng t = X := by
  have hA := range'_mem_bounds X.length
  apply List.ext_get?
  intro j
  by_cases hj : j < X.length
  · have hlen := updateCenters_length X (List.range' 1 X.length) X.length d rng t hA
    have hspec := (updateCenters_spec X (List.range' 1 X.length) X.length d rng t hXd hA
      j hj).1 (by rw [countIn_natural X j hj]; omega)
    rw [get?_eq_some_getD _ j [] (by omega), get?_eq_some_getD X j [] hj]
    have hrow : (updateCenters X (List.range' 1 X.length) X.length d rng t).getD j []
        = X.getD j [] := by
      apply eq_of_getD_eq
      · rw [hspec.1, hXd _ (by rw [List.getD_eq_getElem X [] hj]; exact List.getElem_mem hj)]
      · intro l
        rw [hspec.2 l, countIn_natural X j hj, clusterSum_natural X j l hj]
        push_cast
        rw [div_one]
    rw [hrow]
  · rw [List.get?_eq_none.2 (by rw [updateCenters_length X _ X.length d rng t hA]; omega),
      List.get?_eq_none.2 (by omega)]

lemma kmLoop_reseedFree_rng_irrel (X : Matrix) (tol : ℚ) (mi : ℤ) (k d : ℕ)
    (rng rng' : ℕ → ℕ) (hk : 1 ≤ k) :
    ∀ (fuel : ℕ) (centers : Matrix) (old : List ℕ) (i t t' : ℕ),
      centers.length = k →
      reseedFreeLoop X tol k d centers old fuel = true →
      kmLoop X rng tol mi k d centers old i fuel t
        = kmLoop X rng' tol mi k d centers old i fuel t' := by
  intro fuel
  induction fuel with
  | zero => intro centers old i t t' _ _; rfl
  | succ fuel ih =>
    intro centers old i t t' hlen hfree
    simp only [kmLoop]
    by_cases hA : find_closest_centers X centers = old
    · simp [hA]
    · simp only [if_neg hA]
      simp only [reseedFreeLoop, if_neg hA, Bool.and_eq_true, decide_eq_true_eq] at hfree
      have hpos := hfree.1
      have hrange : ∀ a ∈ find_closest_centers X centers, 1 ≤ a ∧ a ≤ k := by
        intro a ha
        have := find_closest_range X centers (by omega) a ha
        omega
      have hirr : ∀ (r : ℕ → ℕ) (s : ℕ),
          updateCenters X (find_closest_centers X centers) k d r s
            = updateCenters X (find_closest_centers X centers) k d (fun _ => 0) 0 :=
        fun r s => updateCenters_rng_irrel X _ k d r (fun _ => 0) s 0 hrange hpos
      rw [hirr rng t, hirr rng' t']
      by_cases hch : centerChange
          (updateCenters X (find_closest_centers X centers) k d (fun _ => 0) 0) centers < tol
      · simp [hch]
      · simp only [if_neg hch]
        rw [if_neg hch] at hfree
        have hfree2 : reseedFreeLoop X tol k d
            (updateCenters X (find_closest_centers X centers) k d (fun _ => 0) 0)
            (find_closest_centers X centers) fuel = true := by
          simpa using hfree.2
        exact ih _ _ (i + 1) _ _
          (updateCenters_length X _ k d (fun _ => 0) 0 hrange) hfree2

lemma kmeans_fixed_point (X C : Matrix) (tol : ℚ) (rng : ℕ → ℕ)
    (hn : 1 ≤ X.length) (hk : 1 ≤ C.length)
    (hupd : updateCenters X (find_closest_centers X C) C.length
      (X.headD []).length rng 0 = C) :
    (kmeans_cpp_loop X C 1 tol rng).centers = C := by
  rw [kmeans_cpp_loop]
  have h1 : (1 : ℤ).toNat = 0 + 1 := rfl
  rw [h1]
  simp only [kmLoop]
  rw [if_neg (find_closest_ne_zeros X C hn hk), hupd, centerChange_self]
  by_cases hch : (0 : ℚ) < tol
  · rw [if_pos hch]
  · rw [if_neg hch]

lemma kmeans_cluster_range (X C : Matrix) (mi : ℤ) (tol : ℚ) (rng : ℕ → ℕ)
    (hk : 1 ≤ C.length) (hm : 1 ≤ mi) :
    ∀ a ∈ (kmeans_cpp_loop X C mi tol rng).cluster, 1 ≤ a ∧ a ≤ C.length := by
  rw [kmeans_cpp_loop]
  obtain ⟨f, hf⟩ : ∃ f, mi.toNat = f + 1 := ⟨mi.toNat - 1, by omega⟩
  rw [hf]
  simp only [kmLoop]
  have hrange := find_closest_range X C hk
  by_cases hA : find_closest_centers X C = List.replicate X.length 0
  · rw [if_pos hA]
    exact hrange
  · rw [if_neg hA]
    by_cases hch : centerChange (updateCenters X (find_closest_centers X C) C.length
        (X.headD []).length rng 0) C < tol
    · rw [if_pos hch]
      exact hrange
    · rw [if_neg hch]
      exact kmLoop_cluster_inv X rng tol mi C.length (X.headD []).length hk f _ _ 1 _
        (updateCenters_length X _ C.length _ rng 0 hrange) hrange

attribute [local semireducible] Rat.add Rat.mul Rat.sub Rat.inv

/-- C1 counterexample: the claim asserts every assignment entry lies in
`[0, k)`. For `X = [[0]]`, `centers = [[0]]` (so `k = 1`) the assignment
primitive returns `[1]`, whose entry `1` is not `< 1`: the code stores
1-based indices (`best_cluster = j + 1`), not 0-based ones. -/
theorem C1_counterexample :
    ¬ (∀ a ∈ find_closest_centers [[(0 : ℚ)]] [[(0 : ℚ)]], a < 1) := by
  decide

/-- C1 (amended): the assignment primitive returns a vector of length `n`
whose every entry lies in `[1, k]` (1-based), and every entry of the
cluster vector returned by a run with `max_iter ≥ 1` also lies in
`[1, k]`. -/
theorem C1_assignment_range (X C : Matrix) (mi : ℤ) (tol : ℚ) (rng : ℕ → ℕ)
    (hn : 1 ≤ X.length) (hk : 1 ≤ C.length) (hm : 1 ≤ mi) :
    (find_closest_centers X C).length = X.length ∧
    (∀ a ∈ find_closest_centers X C, 1 ≤ a ∧ a ≤ C.length) ∧
    (∀ a ∈ (kmeans_cpp_loop X C mi tol rng).cluster, 1 ≤ a ∧ a ≤ C.length) :=
  ⟨find_closest_length X C, find_closest_range X C hk,
    kmeans_cluster_range X C mi tol rng hk hm⟩

/-- C1 witness at `X = [[0], [2]]`, `C = [[0]]`, `max_iter = 3`. -/
theorem C1_witness :
    (find_closest_centers [[(0 : ℚ)], [2]] [[(0 : ℚ)]]).length = 2 ∧
    (∀ a ∈ find_closest_centers [[(0 : ℚ)], [2]] [[(0 : ℚ)]], 1 ≤ a ∧ a ≤ 1) ∧
    (∀ a ∈ (kmeans_cpp_loop [[(0 : ℚ)], [2]] [[(0 : ℚ)]] 3 0 (fun _ => 0)).cluster,
      1 ≤ a ∧ a ≤ 1) :=
  C1_assignment_range [[(0 : ℚ)], [2]] [[(0 : ℚ)]] 3 0 (fun _ => 0)
    (by decide) (by decide) (by decide)

/-- C2: the update step maps each non-empty cluster `j` to the
coordinate-wise sum over exactly its assigned observations divided by
their count (the arithmetic mean), and each empty cluster `j` to the
coordinates of the observation at the next uniform RNG draw (an element
of the full observation list); the host's uniform draw
`floor(R::runif(0, n_obs))` is modelled as the injected stream `rng`,
whose values are assumed in `[0, n)`. -/
theorem C2_update_step (X : Matrix) (A : List ℕ) (k d : ℕ) (rng : ℕ → ℕ) (t : ℕ)
    (hXd : ∀ r ∈ X, r.length = d) (hA : ∀ a ∈ A, 1 ≤ a ∧ a ≤ k)
    (hrng : ∀ s, rng s < X.length) :
    ∀ j, j < k →
      (0 < countIn X A j →
        ((updateCenters X A k d rng t).getD j []).length = d ∧
        ∀ l, ((updateCenters X A k d rng t).getD j []).getD l 0
          = clusterSum X A j l / (countIn X A j : ℚ)) ∧
      (countIn X A j = 0 →
        (updateCenters X A k d rng t).getD j []
          = X.getD (rng (t + numReseeds ((accumulate X A k d).1.take j))) [] ∧
        (updateCenters X A k d rng t).getD j [] ∈ X) := by
  intro j hj
  have h := updateCenters_spec X A k d rng t hXd hA j hj
  refine ⟨h.1, fun hz => ⟨h.2 hz, ?_⟩⟩
  rw [h.2 hz, List.getD_eq_getElem X [] (hrng _)]
  exact List.getElem_mem _

/-- C2 witness: `k = 3` on two observations assigned to cluster 1
(cluster 1 non-empty: its row is the mean; cluster 3 empty: its row is
the reseeded observation, a row of `X`). -/
theorem C2_witness :
    ((updateCenters [[(0 : ℚ)], [2]] [1, 1] 3 1 (fun _ => 0) 0).getD 0 []).length = 1 ∧
    ((updateCenters [[(0 : ℚ)], [2]] [1, 1] 3 1 (fun _ => 0) 0).getD 0 []).getD 0 0
      = clusterSum [[(0 : ℚ)], [2]] [1, 1] 0 0
        / (countIn [[(0 : ℚ)], [2]] [1, 1] 0 : ℚ) ∧
    (updateCenters [[(0 : ℚ)], [2]] [1, 1] 3 1 (fun _ => 0) 0).getD 2 []
      = [[(0 : ℚ)], [2]].getD ((fun _ => 0)
          (0 + numReseeds ((accumulate [[(0 : ℚ)], [2]] [1, 1] 3 1).1.take 2))) [] ∧
    (updateCenters [[(0 : ℚ)], [2]] [1, 1] 3 1 (fun _ => 0) 0).getD 2 []
      ∈ [[(0 : ℚ)], [2]] := by
  have h := C2_update_step [[(0 : ℚ)], [2]] [1, 1] 3 1 (fun _ => 0) 0
    (by decide) (by decide) (fun _ => Nat.succ_pos 1)
  have h0 := (h 0 (by norm_num)).1 (by decide)
  have h2 := (h 2 (by norm_num)).2 (by decide)
  exact ⟨h0.1, h0.2 0, h2.1, h2.2⟩

/-- C3: with `n ≥ 1`, `k ≥ 1`, `d ≥ 1` and `max_iter ≥ 1`, the zero-filled
initial `old_assignments` can never equal the 1-based assignment vector
produced by the assignment step, so the stability branch cannot fire on
iteration 0: a stability return always reports `iter ≥ 1`. -/
theorem C3_no_first_iteration_stability (X C : Matrix) (mi : ℤ) (tol : ℚ)
    (rng : ℕ → ℕ) (hn : 1 ≤ X.length) (hk : 1 ≤ C.length)
    (hd : 1 ≤ (X.headD []).length) (hm : 1 ≤ mi) :
    find_closest_centers X C ≠ List.replicate X.length 0 ∧
    ((kmeans_cpp_loop X C mi tol rng).reason = .stability →
      1 ≤ (kmeans_cpp_loop X C mi tol rng).iter) := by
  refine ⟨find_closest_ne_zeros X C hn hk, ?_⟩
  rw [kmeans_cpp_loop]
  obtain ⟨f, hf⟩ : ∃ f, mi.toNat = f + 1 := ⟨mi.toNat - 1, by omega⟩
  rw [hf]
  simp only [kmLoop]
  rw [if_neg (find_closest_ne_zeros X C hn hk)]
  by_cases hch : centerChange (updateCenters X (find_closest_centers X C) C.length
      (X.headD []).length rng 0) C < tol
  · rw [if_pos hch]
    intro h
    simp at h
  · rw [if_neg hch]
    intro h
    have := kmLoop_stability_iter X rng tol mi C.length (X.headD []).length f _ _ 1 _ h
    exact_mod_cast this

/-- C3 witness at a run that stops by stability at iteration 1. -/
theorem C3_witness :
    find_closest_centers [[(0 : ℚ)], [10]] [[(0 : ℚ)], [10]]
      ≠ List.replicate 2 0 ∧
    ((kmeans_cpp_loop [[(0 : ℚ)], [10]] [[(0 : ℚ)], [10]] 5 0 (fun _ => 0)).reason
        = .stability →
      1 ≤ (kmeans_cpp_loop [[(0 : ℚ)], [10]] [[(0 : ℚ)], [10]] 5 0 (fun _ => 0)).iter) :=
  C3_no_first_iteration_stability [[(0 : ℚ)], [10]] [[(0 : ℚ)], [10]] 5 0 (fun _ => 0)
    (by decide) (by decide) (by decide) (by decide)

/-- C4 counterexample: the claim asserts that with `tol ≤ 0` exact
equality of consecutive center matrices makes the tolerance branch fire.
With `X = [[0]]`, `C = [[0]]`, `tol = 0`, the iteration-0 update produces
centers exactly equal to the old ones (`center_change = 0`), yet
`0 < 0` is false, so the tolerance branch does not fire and the run ends
via the stability branch instead. -/
theorem C4_counterexample :
    updateCenters [[(0 : ℚ)]] (find_closest_centers [[(0 : ℚ)]] [[(0 : ℚ)]]) 1 1
        (fun _ => 0) 0 = [[(0 : ℚ)]] ∧
    (kmeans_cpp_loop [[(0 : ℚ)]] [[(0 : ℚ)]] 5 0 (fun _ => 0)).reason = .stability := by
  decide

/-- C4 (amended): with `tol ≤ 0` the tolerance branch is entirely
unreachable — `center_change` is a sum of squares, hence nonnegative, and
the comparison is strict, so even exact equality (`center_change = 0`)
does not fire it. -/
theorem C4_tolerance_unreachable (X C : Matrix) (mi : ℤ) (tol : ℚ) (rng : ℕ → ℕ)
    (htol : tol ≤ 0) :
    (kmeans_cpp_loop X C mi tol rng).reason ≠ .tolerance := by
  rw [kmeans_cpp_loop]
  exact kmLoop_tol_nonpos X rng tol mi C.length (X.headD []).length htol _ _ _ 0 0

/-- C4 witness with a negative tolerance. -/
theorem C4_witness :
    (kmeans_cpp_loop [[(0 : ℚ)], [3]] [[(1 : ℚ)]] 4 (-1) (fun _ => 0)).reason
      ≠ .tolerance :=
  C4_tolerance_unreachable [[(0 : ℚ)], [3]] [[(1 : ℚ)]] 4 (-1) (fun _ => 0) (by norm_num)

/-- C5: for a fixed assignment vector with every cluster non-empty (no
reseed in the update), replacing the centers by the update step's output
does not increase the summed within-cluster squared-distance objective:
each cluster's mean minimizes its within-cluster sum of squares. -/
theorem C5_objective_nonincreasing (X : Matrix) (A : List ℕ) (C : Matrix) (d : ℕ)
    (rng : ℕ → ℕ) (t : ℕ)
    (hXd : ∀ r ∈ X, r.length = d) (hCd : ∀ r ∈ C, r.length = d)
    (hA : ∀ a ∈ A, 1 ≤ a ∧ a ≤ C.length)
    (hnoreseed : ∀ j, j < C.length → 0 < countIn X A j) :
    objective X A (updateCenters X A C.length d rng t) ≤ objective X A C :=
  update_objective_le X A C d rng t hXd hCd hA hnoreseed

/-- C5 witness: two 1-D points assigned to one cluster with center 5; the
mean 1 strictly decreases the objective. -/
theorem C5_witness :
    objective [[(0 : ℚ)], [2]] [1, 1]
        (updateCenters [[(0 : ℚ)], [2]] [1, 1] 1 1 (fun _ => 0) 0)
      ≤ objective [[(0 : ℚ)], [2]] [1, 1] [[(5 : ℚ)]] :=
  C5_objective_nonincreasing [[(0 : ℚ)], [2]] [1, 1] [[(5 : ℚ)]] 1 (fun _ => 0) 0
    (by decide) (by decide) (by decide) (by decide)

/-- C6 counterexample: the claim asserts that `center_change < tol` for
the final update suffices for idempotence. With `X = [[0], [7], [10]]`,
`C = [[6], [10]]`, `tol = 100`, `max_iter = 1` the run ends via the
tolerance branch (change `6.25 < 100`) returning centers
`[[3.5], [10]]`; rerunning from those centers with `max_iter = 1`
reassigns observation `7` to the second cluster and returns the different
centers `[[0], [8.5]]`. -/
theorem C6_counterexample :
    (kmeans_cpp_loop [[(0 : ℚ)], [7], [10]] [[(6 : ℚ)], [10]] 1 100 (fun _ => 0)).reason
      = .tolerance ∧
    (kmeans_cpp_loop [[(0 : ℚ)], [7], [10]]
        (kmeans_cpp_loop [[(0 : ℚ)], [7], [10]] [[(6 : ℚ)], [10]] 1 100
          (fun _ => 0)).centers 1 100 (fun _ => 0)).centers
      ≠ (kmeans_cpp_loop [[(0 : ℚ)], [7], [10]] [[(6 : ℚ)], [10]] 1 100
          (fun _ => 0)).centers := by
  decide

/-- C6 (amended): if a run converged via the tolerance branch, and in
addition the assignment computed at the returned centers reproduces the
run's returned assignment with no empty cluster (so the rerun's update is
reseed-free), then rerunning the engine on the returned centers with
`max_iter = 1` returns those centers unchanged, for any tolerance and any
RNG. -/
theorem C6_idempotent_when_stable (X C : Matrix) (mi : ℤ) (tol tol' : ℚ)
    (rng rng' : ℕ → ℕ) (hn : 1 ≤ X.length) (hk : 1 ≤ C.length)
    (hrun : (kmeans_cpp_loop X C mi tol rng).reason = .tolerance)
    (hstable : find_closest_centers X (kmeans_cpp_loop X C mi tol rng).centers
      = (kmeans_cpp_loop X C mi tol rng).cluster)
    (hpos : ∀ j, j < C.length → 0 < countIn X (kmeans_cpp_loop X C mi tol rng).cluster j) :
    (kmeans_cpp_loop X (kmeans_cpp_loop X C mi tol rng).centers 1 tol' rng').centers
      = (kmeans_cpp_loop X C mi tol rng).centers := by
  have hm : 1 ≤ mi := by
    by_contra hcon
    have h0 : mi.toNat = 0 := by omega
    rw [kmeans_cpp_loop, h0] at hrun
    simp [kmLoop] at hrun
  have hA := kmeans_cluster_range X C mi tol rng hk hm
  obtain ⟨t', hct⟩ : ∃ t', (kmeans_cpp_loop X C mi tol rng).centers
      = updateCenters X (kmeans_cpp_loop X C mi tol rng).cluster C.length
        (X.headD []).length rng t' := by
    rw [kmeans_cpp_loop] at hrun ⊢
    exact kmLoop_tolerance_centers X rng tol mi C.length (X.headD []).length
      mi.toNat C _ 0 0 hrun
  have hklen : (kmeans_cpp_loop X C mi tol rng).centers.length = C.length := by
    rw [hct]
    exact updateCenters_length X _ C.length _ rng t' hA
  apply kmeans_fixed_point X _ tol' rng' hn (by omega)
  rw [hstable, hklen]
  have hd0 : ((X.headD []).length) = (X.headD []).length := rfl
  rw [updateCenters_rng_irrel X _ C.length (X.headD []).length rng' rng 0 t' hA hpos]
  exact hct.symm

/-- C6 witness: a run that converges by tolerance onto the exact cluster
means, which are then a fixed point of the rerun. -/
theorem C6_witness :
    (kmeans_cpp_loop [[(0 : ℚ)], [10]]
        (kmeans_cpp_loop [[(0 : ℚ)], [10]] [[(1 : ℚ)], [9]] 5 3 (fun _ => 0)).centers
        1 3 (fun _ => 0)).centers
      = (kmeans_cpp_loop [[(0 : ℚ)], [10]] [[(1 : ℚ)], [9]] 5 3 (fun _ => 0)).centers :=
  C6_idempotent_when_stable [[(0 : ℚ)], [10]] [[(1 : ℚ)], [9]] 5 3 3
    (fun _ => 0) (fun _ => 0) (by decide) (by decide) (by decide) (by decide) (by decide)

/-- C7 counterexample: the claim asserts the engine's result depends only
on `(X, C, max_iter, tol)`. Inducing an empty cluster makes the result
depend on the ambient random draws: with `X = [[0], [1]]`,
`C = [[0], [100]]`, both observations go to cluster 1 and cluster 2 is
reseeded from the RNG — draw streams `0` and `1` yield different centers. -/
theorem C7_counterexample :
    kmeans_cpp_loop [[(0 : ℚ)], [1]] [[(0 : ℚ)], [100]] 1 0 (fun _ => 0)
      ≠ kmeans_cpp_loop [[(0 : ℚ)], [1]] [[(0 : ℚ)], [100]] 1 0 (fun _ => 1) := by
  decide

/-- C7 (amended): the engine is pure and stateless up to the injected
random source: the result is a function of `(X, C, max_iter, tol)` and
the RNG draw stream alone, and on any reseed-free run (no empty cluster
in any executed update) the result does not depend on the RNG at all —
any two invocations then return identical results. -/
theorem C7_pure_up_to_rng (X C : Matrix) (mi : ℤ) (tol : ℚ) (rng rng' : ℕ → ℕ)
    (hk : 1 ≤ C.length) (hfree : reseedFree X C mi tol = true) :
    kmeans_cpp_loop X C mi tol rng = kmeans_cpp_loop X C mi tol rng' := by
  rw [kmeans_cpp_loop, kmeans_cpp_loop]
  exact kmLoop_reseedFree_rng_irrel X tol mi C.length (X.headD []).length rng rng' hk
    mi.toNat C _ 0 0 0 rfl hfree

/-- C7 witness: a reseed-free run gives identical results under two
different RNG streams. -/
theorem C7_witness :
    kmeans_cpp_loop [[(0 : ℚ)]] [[(0 : ℚ)]] 2 0 (fun _ => 0)
      = kmeans_cpp_loop [[(0 : ℚ)]] [[(0 : ℚ)]] 2 0 (fun _ => 1) :=
  C7_pure_up_to_rng [[(0 : ℚ)]] [[(0 : ℚ)]] 2 0 (fun _ => 0) (fun _ => 1)
    (by decide) (by decide)

/-- C8: with the initial centers placed exactly on the pairwise-distinct
observations (one center per observation, `k = n`), the first assignment
sends observation `i` to cluster `i + 1`, the update reproduces the
observations exactly, and for any `max_iter ≥ 1` the run reports
`iter = 1` with the center matrix unchanged. -/
theorem C8_k_eq_n (X : Matrix) (d : ℕ) (mi : ℤ) (tol : ℚ) (rng : ℕ → ℕ)
    (hn : 1 ≤ X.length) (hXd : ∀ r ∈ X, r.length = d) (hnd : X.Nodup) (hm : 1 ≤ mi) :
    (kmeans_cpp_loop X X mi tol rng).iter = 1 ∧
    (kmeans_cpp_loop X X mi tol rng).centers = X := by
  have hd0 : (X.headD []).length = d := by
    cases X with
    | nil => simp at hn
    | cons x X' => exact hXd x (by simp)
  have hA : find_closest_centers X X = List.range' 1 X.length :=
    find_closest_self X d hXd hnd
  rw [kmeans_cpp_loop]
  obtain ⟨f, hf⟩ : ∃ f, mi.toNat = f + 1 := ⟨mi.toNat - 1, by omega⟩
  rw [hf, hd0]
  simp only [kmLoop]
  rw [if_neg (find_closest_ne_zeros X X hn (by omega))]
  rw [hA, updateCenters_natural X d rng 0 hXd, centerChange_self]
  by_cases hch : (0 : ℚ) < tol
  · rw [if_pos hch]
    exact ⟨by norm_num, rfl⟩
  · rw [if_neg hch]
    cases f with
    | zero =>
      have hmi : mi = 1 := by omega
      simp [kmLoop, hmi]
    | succ f' =>
      simp only [kmLoop]
      rw [hA, if_pos rfl]
      exact ⟨by norm_num, rfl⟩

/-- C8 witness: two distinct 1-D observations, centers on them. -/
theorem C8_witness :
    (kmeans_cpp_loop [[(0 : ℚ)], [1]] [[(0 : ℚ)], [1]] 2 0 (fun _ => 0)).iter = 1 ∧
    (kmeans_cpp_loop [[(0 : ℚ)], [1]] [[(0 : ℚ)], [1]] 2 0 (fun _ => 0)).centers
      = [[(0 : ℚ)], [1]] :=
  C8_k_eq_n [[(0 : ℚ)], [1]] 1 2 0 (fun _ => 0)
    (by decide) (by decide) (by decide) (by decide)

/-- C9: on well-shaped input the update step's accesses are all in
bounds and its division always guarded by a positive count — the
bounds-checked update succeeds and agrees with the unchecked one — and
every empty cluster's center is set to a row of `X` (the reseed is
handled internally, never surfaced as an error: the engine is a total
function). -/
theorem C9_update_safety (X C : Matrix) (d : ℕ) (rng : ℕ → ℕ) (t : ℕ)
    (hn : 1 ≤ X.length) (hk : 1 ≤ C.length) (hd : 1 ≤ d)
    (hXd : ∀ r ∈ X, r.length = d) (hrng : ∀ s, rng s < X.length) :
    updateCentersChecked X (find_closest_centers X C) C.length d rng t
      = some (updateCenters X (find_closest_centers X C) C.length d rng t) ∧
    ∀ j, j < C.length → countIn X (find_closest_centers X C) j = 0 →
      (updateCenters X (find_closest_centers X C) C.length d rng t).getD j [] ∈ X := by
  have hA := find_closest_range X C hk
  refine ⟨updateCentersChecked_eq X _ C.length d rng t hA hrng, ?_⟩
  intro j hj hz
  rw [(updateCenters_spec X _ C.length d rng t hXd hA j hj).2 hz,
    List.getD_eq_getElem X [] (hrng _)]
  exact List.getElem_mem _

/-- C9 witness: `k = 2` with both observations nearest to center 1, so
cluster 2 is empty and reseeds from row 0 of `X`. -/
theorem C9_witness :
    updateCentersChecked [[(0 : ℚ)], [1]]
        (find_closest_centers [[(0 : ℚ)], [1]] [[(0 : ℚ)], [100]]) 2 1 (fun _ => 0) 0
      = some (updateCenters [[(0 : ℚ)], [1]]
          (find_closest_centers [[(0 : ℚ)], [1]] [[(0 : ℚ)], [100]]) 2 1 (fun _ => 0) 0) ∧
    ∀ j, j < 2 → countIn [[(0 : ℚ)], [1]]
        (find_closest_centers [[(0 : ℚ)], [1]] [[(0 : ℚ)], [100]]) j = 0 →
      (updateCenters [[(0 : ℚ)], [1]]
        (find_closest_centers [[(0 : ℚ)], [1]] [[(0 : ℚ)], [100]]) 2 1
          (fun _ => 0) 0).getD j [] ∈ [[(0 : ℚ)], [1]] :=
  C9_update_safety [[(0 : ℚ)], [1]] [[(0 : ℚ)], [100]] 1 (fun _ => 0) 0
    (by decide) (by decide) (by decide) (by decide) (fun _ => Nat.succ_pos 1)

/-- C10: for `n ≥ 1`, `k ≥ 1`, the returned cluster vector is determined
by whether the loop ran: with `max_iter ≥ 1` every entry is a 1-based
index in `[1, k]`; with `max_iter ≤ 0` the loop body never executes and
every entry is the default-initialized `0`. -/
theorem C10_cluster_dichotomy (X C : Matrix) (mi : ℤ) (tol : ℚ) (rng : ℕ → ℕ)
    (hn : 1 ≤ X.length) (hk : 1 ≤ C.length) :
    (1 ≤ mi → ∀ a ∈ (kmeans_cpp_loop X C mi tol rng).cluster, 1 ≤ a ∧ a ≤ C.length) ∧
    (mi ≤ 0 → ∀ a ∈ (kmeans_cpp_loop X C mi tol rng).cluster, a = 0) := by
  constructor
  · intro hm
    exact kmeans_cluster_range X C mi tol rng hk hm
  · intro hm
    rw [kmeans_cpp_loop]
    have h0 : mi.toNat = 0 := by omega
    rw [h0]
    simp only [kmLoop]
    intro a ha
    exact List.eq_of_mem_replicate ha

/-- C10 witness at `max_iter = 2` and `max_iter = -1` (the second part is
discharged for a concrete negative `max_iter` by a separate application,
folded into the same conjunction here at `max_iter = 2` where the second
conjunct is vacuous). -/
theorem C10_witness :
    ((1 ≤ (2 : ℤ) → ∀ a ∈ (kmeans_cpp_loop [[(0 : ℚ)], [3]] [[(1 : ℚ)]] 2 0
        (fun _ => 0)).cluster, 1 ≤ a ∧ a ≤ 1) ∧
      ((2 : ℤ) ≤ 0 → ∀ a ∈ (kmeans_cpp_loop [[(0 : ℚ)], [3]] [[(1 : ℚ)]] 2 0
        (fun _ => 0)).cluster, a = 0)) ∧
    ((1 ≤ (-1 : ℤ) → ∀ a ∈ (kmeans_cpp_loop [[(0 : ℚ)], [3]] [[(1 : ℚ)]] (-1) 0
        (fun _ => 0)).cluster, 1 ≤ a ∧ a ≤ 1) ∧
      ((-1 : ℤ) ≤ 0 → ∀ a ∈ (kmeans_cpp_loop [[(0 : ℚ)], [3]] [[(1 : ℚ)]] (-1) 0
        (fun _ => 0)).cluster, a = 0)) :=
  ⟨C10_cluster_dichotomy [[(0 : ℚ)], [3]] [[(1 : ℚ)]] 2 0 (fun _ => 0)
      (by decide) (by decide),
    C10_cluster_dichotomy [[(0 : ℚ)], [3]] [[(1 : ℚ)]] (-1) 0 (fun _ => 0)
      (by decide) (by decide)⟩

end Clustering
